import Mathlib

/-!
Verification of the MusicBot repository's search-resolution / caching
specification against the code.

The repository's shipped code is `src/index.js` (the Discord glue: play
handler, button handlers, stable-message rendering, message clearing); those
parts are embedded directly from that source.  The search subsystem that the
spec describes (query normalizer, cache store, resolver chain, orchestrator —
`utils/cache.py`, `utils/search_optimizer.py`, `utils/youtube_api.py` in the
repository's documentation) is not present in the source tree, so those
components are modelled from the spec's words; each such definition says so in
its doc comment.
-/

set_option autoImplicit false

namespace MusicBot

/-! ## Query normalizer (modelled from the spec) -/

/-- Modelled from the spec: lower-casing of one character ("lower-cased" in
the NormalizedQuery definition; the missing `utils/cache.py` normalizer).
This is the core library's basic-latin lowering. -/
def lowerChar (c : Char) : Char := c.toLower

/-- Prepend a pending word to a word list, dropping it when empty. -/
def consWord (w : List Char) (ws : List (List Char)) : List (List Char) :=
  if w = [] then ws else w :: ws

/-- Split a character list into its whitespace-separated words, accumulating
the word currently being read in `acc`. -/
def wordsGo : List Char → List Char → List (List Char)
  | [], acc => consWord acc []
  | c :: cs, acc =>
    if c.isWhitespace then consWord acc (wordsGo cs [])
    else wordsGo cs (acc ++ [c])

/-- The whitespace-separated words of a character list. -/
def toWords (s : List Char) : List (List Char) := wordsGo s []

/-- Join words back together with a single space between consecutive words. -/
def joinWords : List (List Char) → List Char
  | [] => []
  | [w] => w
  | w :: ws => w ++ ' ' :: joinWords (ws)

/-- Modelled from the spec: the canonical form of a query before the length
cap — lower-cased, internal whitespace runs collapsed to single spaces,
leading/trailing whitespace trimmed (the missing `utils/cache.py`
normalization). -/
def canon (s : List Char) : List Char :=
  joinWords (toWords (s.map lowerChar))

/-- Modelled from the spec: `normalize` on character lists — canonical form
length-capped at the configured maximum (`maxQueryLength`), excess truncated. -/
def normalizeL (maxLen : Nat) (s : List Char) : List Char :=
  (canon s).take maxLen

/-- Modelled from the spec: `normalize(raw) -> NormalizedQuery` with the
configured maximum length (`maxQueryLength`, default 100).  The Python
normalizer itself is absent from the source tree. -/
def normalize (maxLen : Nat) (s : String) : String :=
  ⟨normalizeL maxLen s.data⟩

/-! ## Cache key and cache store (modelled from the spec) -/

/-- Mode discriminator of a cache key ("search" vs "direct-url" vs
"fallback"). Modelled from the spec. -/
inductive ResolveMode
  | search
  | directUrl
  | fallback
deriving DecidableEq

/-- A cache key: mode discriminator plus normalized query.  Modelled from the
spec: the spec's CacheKey is a collision-resistant hash ("fingerprint") of the
NormalizedQuery plus the mode discriminator; the missing hashing code is
modelled by keying on the hashed data itself. -/
abbrev CacheKey := ResolveMode × String

/-- Modelled from the spec: the fingerprint computed from the normalized
query and the mode discriminator. -/
def cacheKey (maxLen : Nat) (mode : ResolveMode) (raw : String) : CacheKey :=
  (mode, normalize maxLen raw)

/-- A Phase-1 lightweight search candidate.  Modelled from the spec. -/
structure LightweightCandidate where
  url : String
  title : String
  uploader : String
  durationSeconds : Option Nat
  sourceKind : String
deriving DecidableEq

/-- A cache entry.  Modelled from the spec (`{value, createdAt, ttl,
lastAccessedAt}`; the key is the association-list key). -/
structure CacheEntry where
  value : List LightweightCandidate
  createdAt : Nat
  ttl : Nat
  lastAccessedAt : Nat
deriving DecidableEq

/-- The cache store state.  Modelled from the spec: a capacity- and
time-bounded map from cache keys to entries with hit/miss counters
(`maxEntries` is the configured capacity). -/
structure Cache where
  entries : List (CacheKey × CacheEntry)
  maxEntries : Nat
  hits : Nat
  misses : Nat
deriving DecidableEq

/-- First-match association-list lookup. -/
def alLookup (key : CacheKey) : List (CacheKey × CacheEntry) → Option CacheEntry
  | [] => none
  | p :: ps => if p.1 = key then some p.2 else alLookup key ps

/-- Remove the first binding of `key`. -/
def alRemove (key : CacheKey) : List (CacheKey × CacheEntry) → List (CacheKey × CacheEntry)
  | [] => []
  | p :: ps => if p.1 = key then ps else p :: alRemove key ps

/-- Refresh `lastAccessedAt` of the bindings of `key`. -/
def alTouch (key : CacheKey) (now : Nat) (l : List (CacheKey × CacheEntry)) :
    List (CacheKey × CacheEntry) :=
  l.map (fun p => if p.1 = key then (p.1, { p.2 with lastAccessedAt := now }) else p)

/-- Result of a cache probe.  Modelled from the spec
(`LightweightCandidate[] or Miss`). -/
inductive GetResult
  | hit (value : List LightweightCandidate)
  | miss
deriving DecidableEq

/-- Modelled from the spec: `get(key)` — Miss for absent keys and for
logically-expired entries (expired once `now > createdAt + ttl`), with lazy
eviction of the expired entry; a hit refreshes `lastAccessedAt` and counts in
the monotonic `hits`/`misses` counters.  The cache store code
(`utils/cache.py`) is absent from the source tree. -/
def cacheGet (c : Cache) (key : CacheKey) (now : Nat) : GetResult × Cache :=
  match alLookup key c.entries with
  | none => (GetResult.miss, { c with misses := c.misses + 1 })
  | some e =>
    if e.createdAt + e.ttl < now then
      (GetResult.miss, { c with entries := alRemove key c.entries, misses := c.misses + 1 })
    else
      (GetResult.hit e.value,
       { c with entries := alTouch key now c.entries, hits := c.hits + 1 })

/-- Least `lastAccessedAt` of a binding list (`0` when empty). -/
def minLastAccess : List (CacheKey × CacheEntry) → Nat
  | [] => 0
  | [p] => p.2.lastAccessedAt
  | p :: ps => min p.2.lastAccessedAt (minLastAccess ps)

/-- Remove the first entry whose `lastAccessedAt` is least. -/
def evictLRU : List (CacheKey × CacheEntry) → List (CacheKey × CacheEntry)
  | [] => []
  | p :: ps =>
    if ps = [] then []
    else if p.2.lastAccessedAt ≤ minLastAccess ps then ps
    else p :: evictLRU ps

/-- Position of the entry `evictLRU` removes: the first index whose
`lastAccessedAt` is least. -/
def lruIndex : List (CacheKey × CacheEntry) → Nat
  | [] => 0
  | [_] => 0
  | p :: ps => if p.2.lastAccessedAt ≤ minLastAccess ps then 0 else lruIndex ps + 1

/-- Modelled from the spec: `put(key, value, ttl)` — replaces an existing
binding (fresh `createdAt`/`lastAccessedAt`); for a new key at capacity it
evicts the least-recently-used entry (by `lastAccessedAt`) before inserting.
The cache store code (`utils/cache.py`) is absent from the source tree. -/
def cachePut (c : Cache) (key : CacheKey) (value : List LightweightCandidate)
    (ttl : Nat) (now : Nat) : Cache :=
  match alLookup key c.entries with
  | some _ =>
    { c with entries :=
        c.entries.map (fun p => if p.1 = key then (key, ⟨value, now, ttl, now⟩) else p) }
  | none =>
    let kept := if c.maxEntries ≤ c.entries.length then evictLRU c.entries else c.entries
    { c with entries := kept ++ [(key, ⟨value, now, ttl, now⟩)] }

/-! ## Resolver chain (modelled from the spec) -/

/-- Typed failure of one resolver attempt.  Modelled from the spec. -/
inductive FailureKind
  | timeout
  | quotaExceeded
  | malformedResponse
deriving DecidableEq

/-- Outcome of one resolver attempt: a (possibly empty) candidate list is a
success; otherwise a typed failure.  Modelled from the spec. -/
inductive ResolverResult
  | success (candidates : List LightweightCandidate)
  | failure (kind : FailureKind)
deriving DecidableEq

/-- A pluggable resolver strategy.  Modelled from the spec: `search(query,
limit) -> ResolverResult`, the outcome of one bounded-timeout invocation
(timeouts surface as the `timeout` failure kind). -/
structure Resolver where
  name : String
  search : String → Nat → ResolverResult

/-- Outcome of a whole chain traversal.  Modelled from the spec: the first
success wins, otherwise `ChainExhausted` naming every attempted resolver and
its failure kind. -/
inductive ChainOutcome
  | success (resolver : String) (candidates : List LightweightCandidate)
  | chainExhausted (attempts : List (String × FailureKind))
deriving DecidableEq

/-- Modelled from the spec: the chain algorithm of §4.3, tried strictly in
configured priority order.  Also returns the names of the resolvers invoked,
in invocation order (the resolver-chain code is absent from the source
tree). -/
def runChain (q : String) (limit : Nat) : List Resolver → ChainOutcome × List String
  | [] => (ChainOutcome.chainExhausted [], [])
  | r :: rs =>
    match r.search q limit with
    | ResolverResult.success cands => (ChainOutcome.success r.name cands, [r.name])
    | ResolverResult.failure k =>
      let rest := runChain q limit rs
      (match rest.1 with
       | ChainOutcome.chainExhausted attempts =>
           ChainOutcome.chainExhausted ((r.name, k) :: attempts)
       | other => other,
       r.name :: rest.2)

/-! ## Search orchestrator (modelled from the spec) -/

/-- Outcome of `fastSearch` as surfaced to the caller.  Modelled from the
spec. -/
inductive SearchOutcome
  | results (candidates : List LightweightCandidate)
  | chainExhausted (attempts : List (String × FailureKind))
deriving DecidableEq

/-- Configuration inputs used by the orchestrator.  Modelled from the spec
(`maxQueryLength`, `cache.defaultTtlSeconds`). -/
structure SearchConfig where
  maxQueryLength : Nat
  defaultTtl : Nat

/-- Modelled from the spec: the `fastSearch` state machine of §4.4
(`NORMALIZING → CACHE_PROBE → {CACHE_HIT | RESOLVING → {RESOLVED |
CHAIN_EXHAUSTED}}`); the orchestrator code is absent from the source tree.
Returns the outcome, the updated cache, and the names of the resolvers
invoked in order — network operations happen only inside resolver
invocations, so an empty invocation list is the no-network path. -/
def fastSearch (cfg : SearchConfig) (resolvers : List Resolver) (cache : Cache)
    (rawQuery : String) (limit : Nat) (now : Nat) :
    SearchOutcome × Cache × List String :=
  let key := cacheKey cfg.maxQueryLength ResolveMode.search rawQuery
  match cacheGet cache key now with
  | (GetResult.hit v, cache') => (SearchOutcome.results v, cache', [])
  | (GetResult.miss, cache') =>
    let q := normalize cfg.maxQueryLength rawQuery
    match runChain q limit resolvers with
    | (ChainOutcome.success _ cands, invoked) =>
        (SearchOutcome.results cands, cachePut cache' key cands cfg.defaultTtl now, invoked)
    | (ChainOutcome.chainExhausted attempts, invoked) =>
        (SearchOutcome.chainExhausted attempts, cache', invoked)

/-! ## Discord glue embedded from `src/index.js` -/

/-- A queued track as used by the handlers in `src/index.js`. -/
structure Track where
  title : String
  url : String
deriving DecidableEq

/-- JS `string.split(sep)` for a one-character separator: split at every
occurrence, keeping empty pieces. -/
def splitOnChar (sep : Char) : List Char → List (List Char)
  | [] => [[]]
  | c :: cs =>
    match splitOnChar sep cs with
    | [] => [[]]
    | w :: ws => if c = sep then [] :: w :: ws else (c :: w) :: ws

/-- What the `play` branch of the `messageCreate` handler does
(`src/index.js` lines 263-288). -/
inductive PlayAction
  | ignored
  | reply (msg : String)
  | searchInvoked (query : String)
deriving DecidableEq

/-- The `play` branch of the `messageCreate` handler (`src/index.js` lines
263-288): `args = content.split(' ').slice(1)`, `query = args.join(' ')`;
an empty `query` or a member outside voice is rejected with a prompt before
`player.search(query, ...)` is invoked. -/
def playHandler (content : String) (inVoiceChannel : Bool) : PlayAction :=
  if "play".data.isPrefixOf content.data then
    let query := joinWords ((splitOnChar ' ' content.data).drop 1)
    if query = [] then PlayAction.reply "Please provide a song name or YouTube link."
    else if ¬ inVoiceChannel then
      PlayAction.reply "You need to be in a voice channel to play music!"
    else PlayAction.searchInvoked ⟨query⟩
  else PlayAction.ignored

/-- Maximal leading digit run of a character list as a number; `none` when
there is no leading digit. -/
def digitsVal? (l : List Char) : Option Nat :=
  let ds := l.takeWhile Char.isDigit
  if ds = [] then none
  else some (ds.foldl (fun a c => a * 10 + (c.toNat - 48)) 0)

/-- JS `parseInt(s, 10)`: skip leading whitespace, optional sign, then the
maximal leading digit run; `none` models `NaN`.  Used by the `remove_`
branch of `src/index.js`. -/
def parseIntJs (l : List Char) : Option Int :=
  match l.dropWhile Char.isWhitespace with
  | '-' :: rest => (digitsVal? rest).map (fun n => -(n : Int))
  | '+' :: rest => (digitsVal? rest).map (fun n => (n : Int))
  | t => (digitsVal? t).map (fun n => (n : Int))

/-- The `remove_` branch of the `interactionCreate` handler (`src/index.js`
lines 376-396): parse `customId.split('_')[1]` with `parseInt`; when the
index is a number and `tracks[index]` exists, splice that element out, clear
the queue and re-add the remaining tracks in order; otherwise reply "Invalid
track index." and leave the queue untouched.  Returns the resulting
upcoming-track list and the reply text. -/
def handleRemove (customId : String) (tracks : List Track) : List Track × String :=
  match parseIntJs ((splitOnChar '_' customId.data).getD 1 []) with
  | none => (tracks, "Invalid track index.")
  | some i =>
    if i < 0 then (tracks, "Invalid track index.")
    else
      match tracks.get? i.toNat with
      | none => (tracks, "Invalid track index.")
      | some removed =>
        (tracks.take i.toNat ++ tracks.drop (i.toNat + 1),
         "Removed **" ++ removed.title ++ "** from the queue.")

/-- A Discord message, reduced to the id that `clearMessages` compares. -/
structure Msg where
  id : String
deriving DecidableEq

/-- Per-guild configuration as held by `config.guilds[guildId]` in
`src/index.js` (`stableMessage` is only present once fetched). -/
structure GuildConfig where
  channelId : String
  stableMessageId : String
  stableMessage : Option Msg
deriving DecidableEq

/-- The messages `clearMessages` bulk-deletes (`src/index.js` lines 184-197):
nothing when the guild has no config or no stable message; otherwise exactly
the fetched messages whose id differs from the stable message's id. -/
def clearMessagesToDelete (guildConfig : Option GuildConfig) (fetched : List Msg) :
    List Msg :=
  match guildConfig with
  | none => []
  | some cfg =>
    match cfg.stableMessage with
    | none => []
    | some stable => fetched.filter (fun m => decide (¬ m.id = stable.id))

/-- One button as built by `updateStableMessage` in `src/index.js`. -/
structure Button where
  customId : String
  label : String
deriving DecidableEq

/-- The remove button built for position `index` by `updateStableMessage` in
`src/index.js`: customId `remove_` + index, label with the 1-based
position. -/
def removeButton (index : Nat) : Button :=
  { customId := "remove_" ++ toString index, label := "❌ Remove " ++ toString (index + 1) }

/-- One step of the `tracks.forEach` loop of `updateStableMessage`
(`src/index.js` lines 128-139): flush the current row once it already holds 5
buttons, then append this track's remove button. -/
def queueButtonsStep (st : List (List Button) × List Button) (p : Nat × Track) :
    List (List Button) × List Button :=
  let flushed := if st.2.length = 5 then (st.1 ++ [st.2], ([] : List Button)) else st
  (flushed.1, flushed.2 ++ [removeButton p.1])

/-- The remove-button action rows built by `updateStableMessage`
(`src/index.js` lines 125-143), including the final flush of a nonempty
partial row. -/
def queueButtonRows (tracks : List Track) : List (List Button) :=
  let st := tracks.enum.foldl queueButtonsStep ([], [])
  if st.2.length > 0 then st.1 ++ [st.2] else st.1

/-! ## Concrete inputs used in counterexamples and witnesses -/

/-- A query whose canonical form is 101 characters long: 99 `a`s, a space,
and a `b`.  With the default `maxQueryLength = 100` the truncation cuts
right after the space. -/
def capQuery : String := ⟨List.replicate 99 'a' ++ [' ', 'b']⟩

/-- A concrete candidate used by witnesses. -/
def sampleCandidate : LightweightCandidate :=
  ⟨"u1", "Song Title", "Uploader", some 212, "youtube"⟩

/-- A resolver that always times out, used by witnesses. -/
def resolverA : Resolver := ⟨"A", fun _ _ => ResolverResult.failure FailureKind.timeout⟩

/-- A resolver that always succeeds with one candidate, used by witnesses. -/
def resolverB : Resolver := ⟨"B", fun _ _ => ResolverResult.success [sampleCandidate]⟩

/-- A resolver that always reports quota exhaustion, used by witnesses. -/
def resolverD : Resolver :=
  ⟨"D", fun _ _ => ResolverResult.failure FailureKind.quotaExceeded⟩

/-- A one-entry cache (createdAt 0, ttl 1), used by witnesses. -/
def sampleCache : Cache :=
  { entries := [((ResolveMode.search, "q"), ⟨[], 0, 1, 0⟩)],
    maxEntries := 10, hits := 0, misses := 0 }

/-- A cache at capacity 2 whose second entry is least recently used, used by
witnesses. -/
def sampleCache2 : Cache :=
  { entries := [((ResolveMode.search, "k1"), ⟨[], 0, 5, 3⟩),
                ((ResolveMode.search, "k2"), ⟨[], 0, 5, 1⟩)],
    maxEntries := 2, hits := 0, misses := 0 }

/-- A cache holding an unexpired entry for the normalized query `song`, used
by witnesses. -/
def sampleCache3 : Cache :=
  { entries := [((ResolveMode.search, "song"), ⟨[sampleCandidate], 0, 1800, 0⟩)],
    maxEntries := 100, hits := 0, misses := 0 }

/-- Three concrete tracks, used by witnesses. -/
def sampleTracks : List Track :=
  [⟨"Song One", "u1"⟩, ⟨"Song Two", "u2"⟩, ⟨"Song Three", "u3"⟩]

/-- Six concrete tracks (so the remove buttons span two rows), used by
witnesses. -/
def sampleTracks6 : List Track :=
  [⟨"S1", "u1"⟩, ⟨"S2", "u2"⟩, ⟨"S3", "u3"⟩, ⟨"S4", "u4"⟩, ⟨"S5", "u5"⟩,
   ⟨"S6", "u6"⟩]

theorem toNat_ofNat_of_lt {n : Nat} (h : n < 55296) : (Char.ofNat n).toNat = n := by
  rw [Char.ofNat, dif_pos (Or.inl h)]
  rfl

theorem isWhitespace_iff_toNat (c : Char) :
    c.isWhitespace = true ↔ (c.toNat = 32 ∨ c.toNat = 9 ∨ c.toNat = 13 ∨ c.toNat = 10) := by
  simp only [Char.isWhitespace, Bool.or_eq_true, decide_eq_true_eq, Char.ext_iff,
    UInt32.ext_iff]
  change ((c.toNat = 32 ∨ c.toNat = 9) ∨ c.toNat = 13) ∨ c.toNat = 10 ↔ _
  tauto

/-- Lowering is idempotent on characters. -/
theorem lowerChar_lowerChar (c : Char) : lowerChar (lowerChar c) = lowerChar c := by
  unfold lowerChar Char.toLower
  by_cases h : c.toNat ≥ 65 ∧ c.toNat ≤ 90
  · rw [if_pos h]
    have hv : (Char.ofNat (c.toNat + 32)).toNat = c.toNat + 32 :=
      toNat_ofNat_of_lt (by omega)
    rw [if_neg (by rw [hv]; omega)]
  · rw [if_neg h, if_neg h]

/-- Lowering preserves the whitespace status of a character. -/
theorem isWhitespace_lowerChar (c : Char) :
    (lowerChar c).isWhitespace = c.isWhitespace := by
  unfold lowerChar Char.toLower
  by_cases h : c.toNat ≥ 65 ∧ c.toNat ≤ 90
  · rw [if_pos h]
    have hv : (Char.ofNat (c.toNat + 32)).toNat = c.toNat + 32 :=
      toNat_ofNat_of_lt (by omega)
    have h1 : (Char.ofNat (c.toNat + 32)).isWhitespace = false := by
      by_contra hw
      have := (isWhitespace_iff_toNat (Char.ofNat (c.toNat + 32))).1
        (by revert hw; cases (Char.ofNat (c.toNat + 32)).isWhitespace <;> simp)
      rw [hv] at this; omega
    have h2 : c.isWhitespace = false := by
      by_contra hw
      have := (isWhitespace_iff_toNat c).1
        (by revert hw; cases c.isWhitespace <;> simp)
      omega
    rw [h1, h2]
  · rw [if_neg h]

theorem map_eq_self_of {α : Type} (f : α → α) (l : List α)
    (h : ∀ c ∈ l, f c = c) : l.map f = l := by
  induction l with
  | nil => rfl
  | cons a t ih =>
    simp only [List.map_cons, List.cons.injEq]
    exact ⟨h a (by simp), ih fun c hc => h c (by simp [hc])⟩

/-- Every word produced by `wordsGo` is nonempty. -/
theorem ne_nil_of_mem_wordsGo (s : List Char) :
    ∀ acc w, w ∈ wordsGo s acc → w ≠ [] := by
  induction s with
  | nil =>
    intro acc w hw
    unfold wordsGo consWord at hw
    split at hw
    · simp at hw
    · rename_i hacc
      simp at hw
      simp [hw, hacc]
  | cons c cs ih =>
    intro acc w hw
    unfold wordsGo at hw
    split at hw
    · unfold consWord at hw
      split at hw
      · exact ih [] w hw
      · rename_i hacc
        rcases List.mem_cons.1 hw with h | h
        · simp [h, hacc]
        · exact ih [] w h
    · exact ih (acc ++ [c]) w hw

/-- Every character of every word produced by `wordsGo` comes from the
accumulator or from the input, and is not whitespace. -/
theorem mem_of_mem_wordsGo (s : List Char) :
    ∀ acc, (∀ c ∈ acc, c.isWhitespace = false) →
      ∀ w ∈ wordsGo s acc, ∀ c ∈ w, (c ∈ acc ∨ c ∈ s) ∧ c.isWhitespace = false := by
  induction s with
  | nil =>
    intro acc hacc w hw c hc
    unfold wordsGo consWord at hw
    split at hw
    · simp at hw
    · simp at hw
      subst hw
      exact ⟨Or.inl hc, hacc c hc⟩
  | cons c0 cs ih =>
    intro acc hacc w hw c hc
    unfold wordsGo at hw
    split at hw
    · unfold consWord at hw
      split at hw
      · have := ih [] (by simp) w hw c hc
        rcases this with ⟨h | h, hws⟩
        · simp at h
        · exact ⟨Or.inr (List.mem_cons_of_mem _ h), hws⟩
      · rcases List.mem_cons.1 hw with h | h
        · subst h
          exact ⟨Or.inl hc, hacc c hc⟩
        · have := ih [] (by simp) w h c hc
          rcases this with ⟨h' | h', hws⟩
          · simp at h'
          · exact ⟨Or.inr (List.mem_cons_of_mem _ h'), hws⟩
    · rename_i hnws
      have hacc' : ∀ d ∈ acc ++ [c0], d.isWhitespace = false := by
        intro d hd
        rcases List.mem_append.1 hd with h | h
        · exact hacc d h
        · simp at h
          subst h
          simpa using hnws
      have := ih (acc ++ [c0]) hacc' w hw c hc
      rcases this with ⟨h | h, hws⟩
      · rcases List.mem_append.1 h with h' | h'
        · exact ⟨Or.inl h', hws⟩
        · simp at h'
          subst h'
          exact ⟨Or.inr (by simp), hws⟩
      · exact ⟨Or.inr (List.mem_cons_of_mem _ h), hws⟩

/-- Reading a whitespace-free block extends the accumulator. -/
theorem wordsGo_append (w : List Char) :
    ∀ r acc, (∀ c ∈ w, c.isWhitespace = false) →
      wordsGo (w ++ r) acc = wordsGo r (acc ++ w) := by
  induction w with
  | nil => intro r acc _; simp
  | cons c cs ih =>
    intro r acc hw
    have hc : c.isWhitespace = false := hw c (by simp)
    have step : wordsGo (c :: (cs ++ r)) acc = wordsGo (cs ++ r) (acc ++ [c]) := by
      show (if c.isWhitespace = true then consWord acc (wordsGo (cs ++ r) [])
            else wordsGo (cs ++ r) (acc ++ [c])) = _
      rw [if_neg (by simp [hc])]
    rw [List.cons_append, step, ih r (acc ++ [c]) (fun d hd => hw d (by simp [hd]))]
    simp

/-- `toWords` recovers the word list from a single-space join of nonempty,
whitespace-free words. -/
theorem toWords_joinWords : ∀ ws : List (List Char),
    (∀ w ∈ ws, w ≠ []) → (∀ w ∈ ws, ∀ c ∈ w, c.isWhitespace = false) →
    toWords (joinWords ws) = ws := by
  intro ws
  induction ws with
  | nil => intro _ _; rfl
  | cons w rest ih =>
    intro hne hnws
    match rest with
    | [] =>
      show toWords (joinWords [w]) = [w]
      unfold joinWords toWords
      rw [show w = w ++ [] by simp] at *
      rw [wordsGo_append _ _ _ (by simpa using hnws w (by simp))]
      unfold wordsGo consWord
      rw [if_neg (by simpa using hne w (by simp))]
      simp
    | w2 :: rest2 =>
      show toWords (w ++ ' ' :: joinWords (w2 :: rest2)) = w :: w2 :: rest2
      unfold toWords
      rw [wordsGo_append _ _ _ (hnws w (by simp))]
      show wordsGo (' ' :: joinWords (w2 :: rest2)) ([] ++ w) = _
      unfold wordsGo
      rw [if_pos (by decide)]
      unfold consWord
      rw [if_neg (by simpa using hne w (by simp))]
      have : wordsGo (joinWords (w2 :: rest2)) [] = w2 :: rest2 := by
        have := ih (fun x hx => hne x (by simp [hx]))
          (fun x hx => hnws x (by simp [hx]))
        simpa [toWords] using this
      simp [this]

/-- Characters of a join are spaces or characters of the words. -/
theorem mem_joinWords : ∀ ws : List (List Char), ∀ c ∈ joinWords ws,
    c = ' ' ∨ ∃ w ∈ ws, c ∈ w := by
  intro ws
  induction ws with
  | nil => intro c hc; simp [joinWords] at hc
  | cons w rest ih =>
    intro c hc
    match rest with
    | [] =>
      right
      exact ⟨w, by simp, by simpa [joinWords] using hc⟩
    | w2 :: rest2 =>
      have hc' : c ∈ w ++ ' ' :: joinWords (w2 :: rest2) := hc
      rcases List.mem_append.1 hc' with h | h
      · exact Or.inr ⟨w, by simp, h⟩
      · rcases List.mem_cons.1 h with h' | h'
        · exact Or.inl h'
        · rcases ih c h' with h'' | ⟨w', hw', hc''⟩
          · exact Or.inl h''
          · exact Or.inr ⟨w', by simp [hw'], hc''⟩

/-- Every character of `canon s` is fixed by lowering. -/
theorem lowerChar_fixed_of_mem_canon (s : List Char) :
    ∀ c ∈ canon s, lowerChar c = c := by
  intro c hc
  rcases mem_joinWords _ c hc with h | ⟨w, hw, hcw⟩
  · subst h; decide
  · have := mem_of_mem_wordsGo (s.map lowerChar) [] (by simp) w hw c hcw
    rcases this with ⟨h | h, _⟩
    · simp at h
    · rcases List.mem_map.1 h with ⟨x, _, hx⟩
      rw [← hx]
      exact lowerChar_lowerChar x

/-- The canonical form is a fixed point of `canon`. -/
theorem canon_canon (s : List Char) : canon (canon s) = canon s := by
  have hmap : (canon s).map lowerChar = canon s :=
    map_eq_self_of _ _ (lowerChar_fixed_of_mem_canon s)
  have h1 : ∀ w ∈ toWords (s.map lowerChar), w ≠ [] :=
    fun w hw => ne_nil_of_mem_wordsGo _ _ w hw
  have h2 : ∀ w ∈ toWords (s.map lowerChar), ∀ c ∈ w, c.isWhitespace = false :=
    fun w hw c hc => (mem_of_mem_wordsGo _ [] (by simp) w hw c hc).2
  show joinWords (toWords ((canon s).map lowerChar)) = canon s
  rw [hmap]
  show joinWords (toWords (joinWords (toWords (s.map lowerChar)))) = _
  rw [toWords_joinWords (toWords (s.map lowerChar)) h1 h2]
  rfl

/-- A join of nonempty words is nonempty when the word list is. -/
theorem joinWords_ne_nil : ∀ ws : List (List Char), ws ≠ [] →
    (∀ w ∈ ws, w ≠ []) → joinWords ws ≠ [] := by
  intro ws hne hwf
  match ws with
  | [] => exact absurd rfl hne
  | [w] => simpa [joinWords] using hwf w (by simp)
  | w :: w2 :: r =>
    show w ++ ' ' :: joinWords (w2 :: r) ≠ []
    simp

/-- The head of a join of nonempty words belongs to one of the words. -/
theorem joinWords_head : ∀ ws : List (List Char), (∀ w ∈ ws, w ≠ []) →
    ∀ x, (joinWords ws).head? = some x → ∃ w ∈ ws, x ∈ w := by
  intro ws hwf x hx
  match ws, hwf, hx with
  | [], _, hx => simp [joinWords] at hx
  | [w], hwf, hx =>
    exact ⟨w, by simp, List.mem_of_mem_head? (by simp [joinWords] at hx; simp [hx])⟩
  | [] :: w2 :: r, hwf, hx => exact absurd rfl (hwf [] (by simp))
  | (c :: t) :: w2 :: r, hwf, hx =>
    have hx' : (c :: (t ++ ' ' :: joinWords (w2 :: r))).head? = some x := by
      simpa [joinWords] using hx
    simp at hx'
    exact ⟨c :: t, by simp, by simp [hx']⟩

/-- The last character of a join of nonempty words belongs to one of the
words. -/
theorem joinWords_getLast : ∀ ws : List (List Char), (∀ w ∈ ws, w ≠ []) →
    ∀ x, (joinWords ws).getLast? = some x → ∃ w ∈ ws, x ∈ w := by
  intro ws
  induction ws with
  | nil => intro _ x hx; simp [joinWords] at hx
  | cons w rest ih =>
    intro hwf x hx
    match rest with
    | [] =>
      exact ⟨w, by simp, List.mem_of_mem_getLast? (by simp [joinWords] at hx; simp [hx])⟩
    | w2 :: r =>
      have hJ : joinWords (w2 :: r) ≠ [] :=
        joinWords_ne_nil _ (by simp) (fun u hu => hwf u (by simp [hu]))
      have hx' : (joinWords (w2 :: r)).getLast? = some x := by
        have h1 : (w ++ ' ' :: joinWords (w2 :: r)).getLast? = some x := hx
        rw [List.getLast?_append] at h1
        rcases hl : (' ' :: joinWords (w2 :: r)).getLast? with _ | y
        · simp [List.getLast?_eq_none_iff] at hl
        · rw [hl] at h1
          simp at h1
          have h2 : ([' '] ++ joinWords (w2 :: r)).getLast? = some y := hl
          rw [List.getLast?_append] at h2
          rcases hl2 : (joinWords (w2 :: r)).getLast? with _ | z
          · simp [List.getLast?_eq_none_iff] at hl2
            exact absurd hl2 hJ
          · rw [hl2] at h2
            simp at h2
            rw [h2, h1]
      rcases ih (fun u hu => hwf u (by simp [hu])) x hx' with ⟨u, hu, hxu⟩
      exact ⟨u, by simp [hu], hxu⟩

/-- Whitespace-free lists have no two adjacent whitespace characters. -/
theorem chain'_of_all_not_ws (l : List Char) (h : ∀ c ∈ l, c.isWhitespace = false) :
    List.Chain' (fun a b => a.isWhitespace = false ∨ b.isWhitespace = false) l := by
  induction l with
  | nil => exact List.chain'_nil
  | cons a t ih =>
    rw [List.chain'_cons']
    exact ⟨fun y _ => Or.inl (h a (by simp)),
      ih (fun c hc => h c (by simp [hc]))⟩

/-- A single-space join of nonempty whitespace-free words has no two adjacent
whitespace characters. -/
theorem joinWords_chain' : ∀ ws : List (List Char), (∀ w ∈ ws, w ≠ []) →
    (∀ w ∈ ws, ∀ c ∈ w, c.isWhitespace = false) →
    List.Chain' (fun a b => a.isWhitespace = false ∨ b.isWhitespace = false)
      (joinWords ws) := by
  intro ws
  induction ws with
  | nil => intro _ _; exact List.chain'_nil
  | cons w rest ih =>
    intro hne hnws
    match rest with
    | [] =>
      exact chain'_of_all_not_ws w (hnws w (by simp))
    | w2 :: r =>
      show List.Chain' _ (w ++ ' ' :: joinWords (w2 :: r))
      rw [List.chain'_append]
      refine ⟨chain'_of_all_not_ws w (hnws w (by simp)), ?_, ?_⟩
      · rw [List.chain'_cons']
        refine ⟨?_, ih (fun u hu => hne u (by simp [hu]))
          (fun u hu => hnws u (by simp [hu]))⟩
        intro y hy
        rcases joinWords_head (w2 :: r) (fun u hu => hne u (by simp [hu])) y hy with
          ⟨u, hu, hyu⟩
        exact Or.inr (hnws u (by simp [hu]) y hyu)
      · intro x hx y _
        exact Or.inl (hnws w (by simp) x (List.mem_of_mem_getLast? hx))

/-- The word list underlying `canon` is nonempty-and-whitespace-free. -/
theorem canon_words_wf (s : List Char) :
    (∀ w ∈ toWords (s.map lowerChar), w ≠ []) ∧
    (∀ w ∈ toWords (s.map lowerChar), ∀ c ∈ w, c.isWhitespace = false) :=
  ⟨fun w hw => ne_nil_of_mem_wordsGo _ _ w hw,
   fun w hw c hc => (mem_of_mem_wordsGo _ [] (by simp) w hw c hc).2⟩

/-- The canonical form never starts with whitespace. -/
theorem canon_head_not_ws (s : List Char) :
    ∀ x, (canon s).head? = some x → x.isWhitespace = false := by
  intro x hx
  rcases joinWords_head _ (canon_words_wf s).1 x hx with ⟨w, hw, hxw⟩
  exact (mem_of_mem_wordsGo _ [] (by simp) w hw x hxw).2

/-- The canonical form never ends with whitespace. -/
theorem canon_getLast_not_ws (s : List Char) :
    ∀ x, (canon s).getLast? = some x → x.isWhitespace = false := by
  intro x hx
  rcases joinWords_getLast _ (canon_words_wf s).1 x hx with ⟨w, hw, hxw⟩
  exact (mem_of_mem_wordsGo _ [] (by simp) w hw x hxw).2

/-- The canonical form has no two adjacent whitespace characters. -/
theorem canon_chain' (s : List Char) :
    List.Chain' (fun a b => a.isWhitespace = false ∨ b.isWhitespace = false)
      (canon s) :=
  joinWords_chain' _ (canon_words_wf s).1 (canon_words_wf s).2

theorem head?_of_take_head? {α : Type} {l : List α} {n : Nat} {x : α}
    (h : (l.take n).head? = some x) : l.head? = some x := by
  match n, l with
  | 0, _ => simp at h
  | _ + 1, [] => simp at h
  | _ + 1, c :: t => simpa using h

/-- C5 (amended): normalization is deterministic, and idempotent on every
string whose canonical (lower-cased, whitespace-collapsed, trimmed) form is
within the configured maximum length, so that the length cap does not cut
the canonical form: `normalize(normalize(s)) = normalize(s)` there. -/
theorem normalize_idempotent_of_fits (maxLen : Nat) (s : String)
    (h : (canon s.data).length ≤ maxLen) :
    normalize maxLen (normalize maxLen s) = normalize maxLen s := by
  have hs : (canon s.data).take maxLen = canon s.data := List.take_of_length_le h
  show String.mk ((canon ((canon s.data).take maxLen)).take maxLen)
      = String.mk ((canon s.data).take maxLen)
  rw [hs, canon_canon, hs]

/-- Witness for the amended C5 at a concrete query within the length cap. -/
theorem normalize_idempotent_of_fits_witness :
    (canon ("  Bohemian  Rhapsody ").data).length ≤ 100 ∧
    normalize 100 (normalize 100 "  Bohemian  Rhapsody ")
      = normalize 100 "  Bohemian  Rhapsody " :=
  ⟨by decide, normalize_idempotent_of_fits 100 "  Bohemian  Rhapsody " (by decide)⟩

set_option maxRecDepth 8192 in
/-- C5 counterexample: with the default `maxQueryLength = 100`, truncation
can cut the canonical form right after a word, leaving a trailing space that
a second normalization removes, so `normalize` is not idempotent on all
strings. -/
theorem normalize_not_idempotent :
    normalize 100 (normalize 100 capQuery) ≠ normalize 100 capQuery := by
  decide

/-- C6 (amended): `normalize` always yields a string of length at most the
configured maximum, all of whose characters are fixed by lower-casing, that
never starts with whitespace and contains no two adjacent whitespace
characters; whenever the canonical form is within the cap the result also
has no trailing whitespace (truncation can otherwise leave one trailing
space); and any two raw queries that normalize identically produce the same
cache key. -/
theorem normalize_result_shape (maxLen : Nat) (s : String) :
    (normalize maxLen s).data.length ≤ maxLen ∧
    (∀ c ∈ (normalize maxLen s).data, lowerChar c = c) ∧
    (∀ x, (normalize maxLen s).data.head? = some x → x.isWhitespace = false) ∧
    List.Chain' (fun a b => a.isWhitespace = false ∨ b.isWhitespace = false)
      (normalize maxLen s).data ∧
    ((canon s.data).length ≤ maxLen →
      ∀ x, (normalize maxLen s).data.getLast? = some x → x.isWhitespace = false) ∧
    (∀ mode q1 q2, normalize maxLen q1 = normalize maxLen q2 →
      cacheKey maxLen mode q1 = cacheKey maxLen mode q2) := by
  have hdata : (normalize maxLen s).data = (canon s.data).take maxLen := rfl
  refine ⟨?_, ?_, ?_, ?_, ?_, ?_⟩
  · rw [hdata]
    exact List.length_take_le _ _
  · intro c hc
    rw [hdata] at hc
    exact lowerChar_fixed_of_mem_canon _ c (List.mem_of_mem_take hc)
  · intro x hx
    rw [hdata] at hx
    exact canon_head_not_ws _ x (head?_of_take_head? hx)
  · rw [hdata]
    exact (canon_chain' s.data).take maxLen
  · intro hfit x hx
    rw [hdata, List.take_of_length_le hfit] at hx
    exact canon_getLast_not_ws _ x hx
  · intro mode q1 q2 h
    show (mode, normalize maxLen q1) = (mode, normalize maxLen q2)
    rw [h]

/-- Witness for the amended C6 at concrete queries, including the spec's
cache-key-stability example. -/
theorem normalize_result_shape_witness :
    (normalize 100 "Bohemian Rhapsody").data.length ≤ 100 ∧
    normalize 100 "Bohemian Rhapsody" = normalize 100 "  bohemian rhapsody " ∧
    cacheKey 100 ResolveMode.search "Bohemian Rhapsody"
      = cacheKey 100 ResolveMode.search "  bohemian rhapsody " :=
  ⟨(normalize_result_shape 100 "Bohemian Rhapsody").1, by decide,
   (normalize_result_shape 100 "Bohemian Rhapsody").2.2.2.2.2 ResolveMode.search
     "Bohemian Rhapsody" "  bohemian rhapsody " (by decide)⟩

set_option maxRecDepth 8192 in
/-- C6 counterexample: at the default cap of 100, `normalize` can return a
string that ends in a space, so the claimed "leading and trailing whitespace
trimmed" result shape fails when the truncation cuts right after a word. -/
theorem normalize_trailing_whitespace :
    (normalize 100 capQuery).data.getLast? = some ' ' ∧ (' ').isWhitespace = true := by
  decide

/-- C2: a `get` returns Miss both for absent keys and for logically expired
entries (`now > createdAt + ttl`), even when the entry has not yet been
physically evicted; the Miss leaves the binding list unchanged apart from
the lazy eviction of the expired entry. -/
theorem cacheGet_miss_spec (c : Cache) (key : CacheKey) (now : Nat) :
    (alLookup key c.entries = none →
      (cacheGet c key now).1 = GetResult.miss ∧
      (cacheGet c key now).2.entries = c.entries) ∧
    (∀ e, alLookup key c.entries = some e → e.createdAt + e.ttl < now →
      (cacheGet c key now).1 = GetResult.miss ∧
      (cacheGet c key now).2.entries = alRemove key c.entries) := by
  constructor
  · intro h
    simp [cacheGet, h]
  · intro e he hexp
    simp [cacheGet, he, hexp]

/-- Witness for C2: the sample cache misses on an absent key without touching
its entries, and misses on the key of an entry expired at `now = 2`
(created at 0 with ttl 1), lazily evicting it. -/
theorem cacheGet_miss_spec_witness :
    ((cacheGet sampleCache (ResolveMode.search, "absent") 2).1 = GetResult.miss ∧
     (cacheGet sampleCache (ResolveMode.search, "absent") 2).2.entries
       = sampleCache.entries) ∧
    ((cacheGet sampleCache (ResolveMode.search, "q") 2).1 = GetResult.miss ∧
     (cacheGet sampleCache (ResolveMode.search, "q") 2).2.entries
       = alRemove (ResolveMode.search, "q") sampleCache.entries) :=
  ⟨(cacheGet_miss_spec sampleCache (ResolveMode.search, "absent") 2).1 (by decide),
   (cacheGet_miss_spec sampleCache (ResolveMode.search, "q") 2).2
     ⟨[], 0, 1, 0⟩ (by decide) (by decide)⟩

theorem minLastAccess_le :
    ∀ l : List (CacheKey × CacheEntry), ∀ p ∈ l,
      minLastAccess l ≤ p.2.lastAccessedAt := by
  intro l
  induction l with
  | nil => intro p hp; simp at hp
  | cons q rest ih =>
    intro p hp
    rcases List.mem_cons.1 hp with h | h
    · subst h
      cases rest with
      | nil => exact Nat.le_refl _
      | cons q2 r => exact Nat.min_le_left _ _
    · cases rest with
      | nil => simp at h
      | cons q2 r => exact Nat.le_trans (Nat.min_le_right _ _) (ih p h)

theorem lruIndex_lt :
    ∀ l : List (CacheKey × CacheEntry), l ≠ [] → lruIndex l < l.length := by
  intro l
  induction l with
  | nil => intro h; exact absurd rfl h
  | cons p rest ih =>
    intro _
    cases rest with
    | nil => exact Nat.zero_lt_one
    | cons q r =>
      show (if p.2.lastAccessedAt ≤ minLastAccess (q :: r) then 0
            else lruIndex (q :: r) + 1) < (q :: r).length + 1
      split
      · exact Nat.succ_pos _
      · have := ih (by simp)
        omega

theorem evictLRU_eq :
    ∀ l : List (CacheKey × CacheEntry), l ≠ [] →
      evictLRU l = l.take (lruIndex l) ++ l.drop (lruIndex l + 1) := by
  intro l
  induction l with
  | nil => intro h; exact absurd rfl h
  | cons p rest ih =>
    intro _
    cases rest with
    | nil => rfl
    | cons q r =>
      show (if (q :: r) = [] then []
            else if p.2.lastAccessedAt ≤ minLastAccess (q :: r) then q :: r
            else p :: evictLRU (q :: r)) = _
      rw [if_neg (by simp)]
      by_cases hle : p.2.lastAccessedAt ≤ minLastAccess (q :: r)
      · rw [if_pos hle]
        have h0 : lruIndex (p :: q :: r) = 0 := by
          show (if _ then _ else _) = _
          rw [if_pos hle]
        rw [h0]
        rfl
      · rw [if_neg hle]
        have h1 : lruIndex (p :: q :: r) = lruIndex (q :: r) + 1 := by
          show (if _ then _ else _) = _
          rw [if_neg hle]
        rw [h1, ih (by simp)]
        rfl

theorem get?_map_lruIndex :
    ∀ l : List (CacheKey × CacheEntry), l ≠ [] →
      (l.map (fun p => p.2.lastAccessedAt)).get? (lruIndex l)
        = some (minLastAccess l) := by
  intro l
  induction l with
  | nil => intro h; exact absurd rfl h
  | cons p rest ih =>
    intro _
    cases rest with
    | nil => rfl
    | cons q r =>
      by_cases hle : p.2.lastAccessedAt ≤ minLastAccess (q :: r)
      · have h0 : lruIndex (p :: q :: r) = 0 := by
          show (if _ then _ else _) = _
          rw [if_pos hle]
        rw [h0]
        show some p.2.lastAccessedAt = some (minLastAccess (p :: q :: r))
        have hmin : minLastAccess (p :: q :: r) = p.2.lastAccessedAt := by
          show min p.2.lastAccessedAt (minLastAccess (q :: r)) = _
          exact Nat.min_eq_left hle
        rw [hmin]
      · have h1 : lruIndex (p :: q :: r) = lruIndex (q :: r) + 1 := by
          show (if _ then _ else _) = _
          rw [if_neg hle]
        rw [h1]
        show (List.map _ (q :: r)).get? (lruIndex (q :: r))
          = some (minLastAccess (p :: q :: r))
        rw [ih (by simp)]
        have hmin : minLastAccess (p :: q :: r) = minLastAccess (q :: r) := by
          show min p.2.lastAccessedAt (minLastAccess (q :: r)) = _
          exact Nat.min_eq_right (Nat.le_of_not_le hle)
        rw [hmin]

theorem alLookup_alTouch (key : CacheKey) (now : Nat) :
    ∀ l, alLookup key (alTouch key now l)
      = (alLookup key l).map (fun e => { e with lastAccessedAt := now }) := by
  intro l
  induction l with
  | nil => rfl
  | cons p ps ih =>
    by_cases h : p.1 = key
    · show alLookup key
          ((if p.1 = key then (p.1, { p.2 with lastAccessedAt := now }) else p)
            :: alTouch key now ps) = _
      rw [if_pos h]
      show (if p.1 = key then some { p.2 with lastAccessedAt := now }
            else alLookup key (alTouch key now ps)) = _
      rw [if_pos h]
      show _ = (if p.1 = key then some p.2 else alLookup key ps).map _
      rw [if_pos h]
      rfl
    · show alLookup key
          ((if p.1 = key then (p.1, { p.2 with lastAccessedAt := now }) else p)
            :: alTouch key now ps) = _
      rw [if_neg h]
      show (if p.1 = key then some p.2
            else alLookup key (alTouch key now ps)) = _
      rw [if_neg h, ih]
      show _ = (if p.1 = key then some p.2 else alLookup key ps).map _
      rw [if_neg h]

/-- C3: when `put` is given a new key while the store is at its configured
capacity, the entry at the first least-recently-used position (least
`lastAccessedAt`, a lower bound of all entries) is removed and the new
binding appended; and a `get` hit rewrites the entry's `lastAccessedAt` to
`now`, so reads count as uses for the LRU order. -/
theorem cachePut_lru_spec (c : Cache) (key : CacheKey)
    (value : List LightweightCandidate) (ttl now : Nat) :
    (alLookup key c.entries = none → c.entries.length = c.maxEntries →
      0 < c.maxEntries →
      (c.entries.map (fun p => p.2.lastAccessedAt)).get? (lruIndex c.entries)
          = some (minLastAccess c.entries) ∧
      (∀ p ∈ c.entries, minLastAccess c.entries ≤ p.2.lastAccessedAt) ∧
      (cachePut c key value ttl now).entries
        = (c.entries.take (lruIndex c.entries)
            ++ c.entries.drop (lruIndex c.entries + 1))
            ++ [(key, ⟨value, now, ttl, now⟩)]) ∧
    (∀ e, alLookup key c.entries = some e → ¬ e.createdAt + e.ttl < now →
      alLookup key (cacheGet c key now).2.entries
        = some { e with lastAccessedAt := now }) := by
  constructor
  · intro hnone hlen hpos
    have hne : c.entries ≠ [] := by
      intro h
      rw [h] at hlen
      simp at hlen
      omega
    refine ⟨get?_map_lruIndex c.entries hne, minLastAccess_le c.entries, ?_⟩
    have hcap : c.maxEntries ≤ c.entries.length := Nat.le_of_eq hlen.symm
    simp [cachePut, hnone, if_pos hcap, evictLRU_eq c.entries hne]
  · intro e he hexp
    have hget : (cacheGet c key now).2.entries = alTouch key now c.entries := by
      simp [cacheGet, he, hexp]
    rw [hget, alLookup_alTouch, he]
    rfl

/-- Witness for C3 on the capacity-2 sample cache: inserting a third key
evicts the least-recently-used binding (position 1), and a hit on `k1` at
`now = 4` refreshes its `lastAccessedAt` to 4. -/
theorem cachePut_lru_spec_witness :
    (cachePut sampleCache2 (ResolveMode.search, "k3") [] 5 7).entries
      = (sampleCache2.entries.take 1 ++ sampleCache2.entries.drop 2)
          ++ [((ResolveMode.search, "k3"), ⟨[], 7, 5, 7⟩)] ∧
    alLookup (ResolveMode.search, "k1")
        (cacheGet sampleCache2 (ResolveMode.search, "k1") 4).2.entries
      = some ⟨[], 0, 5, 4⟩ :=
  ⟨((cachePut_lru_spec sampleCache2 (ResolveMode.search, "k3") [] 5 7).1
      (by decide) (by decide) (by decide)).2.2,
   (cachePut_lru_spec sampleCache2 (ResolveMode.search, "k1") [] 5 4).2
     ⟨[], 0, 5, 3⟩ (by decide) (by decide)⟩

/-- C1: resolvers are tried strictly in configured order; the first resolver
that returns success — even with an empty candidate list — ends the
traversal with exactly the resolvers up to and including it invoked and its
result returned; a typed failure falls through to the next resolver; and
when every resolver fails the chain returns `chainExhausted` naming every
attempted resolver together with its failure kind. -/
theorem runChain_spec (q : String) (limit : Nat) :
    (∀ (pre : List Resolver) (r : Resolver) (rest : List Resolver)
        (cands : List LightweightCandidate),
      (∀ p ∈ pre, ∃ k, p.search q limit = ResolverResult.failure k) →
      r.search q limit = ResolverResult.success cands →
      runChain q limit (pre ++ r :: rest)
        = (ChainOutcome.success r.name cands,
           pre.map Resolver.name ++ [r.name])) ∧
    (∀ (rs : List Resolver) (f : Resolver → FailureKind),
      (∀ r ∈ rs, r.search q limit = ResolverResult.failure (f r)) →
      runChain q limit rs
        = (ChainOutcome.chainExhausted (rs.map (fun r => (r.name, f r))),
           rs.map Resolver.name)) := by
  have hexh : ∀ (rs : List Resolver) (f : Resolver → FailureKind),
      (∀ r ∈ rs, r.search q limit = ResolverResult.failure (f r)) →
      runChain q limit rs
        = (ChainOutcome.chainExhausted (rs.map (fun r => (r.name, f r))),
           rs.map Resolver.name) := by
    intro rs
    induction rs with
    | nil => intro f _; rfl
    | cons r rest ih =>
      intro f hf
      have hr : r.search q limit = ResolverResult.failure (f r) := hf r (by simp)
      have hrest := ih f (fun p hp => hf p (by simp [hp]))
      simp [runChain, hr, hrest]
  refine ⟨?_, hexh⟩
  intro pre
  induction pre with
  | nil =>
    intro r rest cands _ hr
    simp [runChain, hr]
  | cons p pre' ih =>
    intro r rest cands hpre hr
    rcases hpre p (by simp) with ⟨k, hk⟩
    have hrec := ih r rest cands (fun x hx => hpre x (by simp [hx])) hr
    simp [runChain, hk, hrec]

/-- Witness for C1: with resolver A timing out, B succeeding and D further
down, the chain returns B's result having invoked exactly A then B; with
only failing resolvers A and D it is exhausted naming both with their
kinds. -/
theorem runChain_spec_witness :
    runChain "q" 5 ([resolverA] ++ resolverB :: [resolverD])
      = (ChainOutcome.success "B" [sampleCandidate],
         [resolverA].map Resolver.name ++ ["B"]) ∧
    runChain "q" 5 [resolverA, resolverD]
      = (ChainOutcome.chainExhausted
          ([resolverA, resolverD].map
            (fun r => (r.name,
              if r.name = "A" then FailureKind.timeout
              else FailureKind.quotaExceeded))),
         [resolverA, resolverD].map Resolver.name) :=
  ⟨(runChain_spec "q" 5).1 [resolverA] resolverB [resolverD] [sampleCandidate]
     (by intro p hp
         simp at hp
         subst hp
         exact ⟨FailureKind.timeout, rfl⟩)
     rfl,
   (runChain_spec "q" 5).2 [resolverA, resolverD]
     (fun r => if r.name = "A" then FailureKind.timeout
               else FailureKind.quotaExceeded)
     (by intro r hr
         rcases List.mem_cons.1 hr with h | h
         · subst h; rfl
         · simp at h; subst h; rfl)⟩

theorem runChain_trace_take (q : String) (limit : Nat) :
    ∀ rs : List Resolver,
      ∃ k, k ≤ rs.length ∧
        (runChain q limit rs).2 = (rs.map Resolver.name).take k := by
  intro rs
  induction rs with
  | nil => exact ⟨0, Nat.le_refl _, rfl⟩
  | cons r rest ih =>
    cases hr : r.search q limit with
    | success cands =>
      refine ⟨1, by simp, ?_⟩
      simp [runChain, hr]
    | failure k =>
      rcases ih with ⟨k', hk', htr⟩
      refine ⟨k' + 1, by simp [Nat.succ_le_succ hk'], ?_⟩
      simp [runChain, hr, htr]

/-- C4: when the cache holds an unexpired entry for the query's key,
`fastSearch` returns the cached candidates having invoked no resolver at all
(network operations happen only inside resolver invocations in this model);
and in every case — in particular on a cache miss — the invoked resolvers
are an in-order initial segment of the configured chain, so at most one
chain traversal happens. -/
theorem fastSearch_spec (cfg : SearchConfig) (resolvers : List Resolver)
    (cache : Cache) (raw : String) (limit now : Nat) :
    (∀ e, alLookup (cacheKey cfg.maxQueryLength ResolveMode.search raw)
        cache.entries = some e →
      ¬ e.createdAt + e.ttl < now →
      fastSearch cfg resolvers cache raw limit now
        = (SearchOutcome.results e.value,
           { cache with
               entries := alTouch (cacheKey cfg.maxQueryLength ResolveMode.search raw)
                 now cache.entries,
               hits := cache.hits + 1 },
           [])) ∧
    (∃ k, k ≤ resolvers.length ∧
      (fastSearch cfg resolvers cache raw limit now).2.2
        = (resolvers.map Resolver.name).take k) := by
  constructor
  · intro e he hexp
    have hget : cacheGet cache (cacheKey cfg.maxQueryLength ResolveMode.search raw) now
        = (GetResult.hit e.value,
           { cache with
               entries := alTouch (cacheKey cfg.maxQueryLength ResolveMode.search raw)
                 now cache.entries,
               hits := cache.hits + 1 }) := by
      simp [cacheGet, he, hexp]
    simp [fastSearch, hget]
  · rcases hget : cacheGet cache (cacheKey cfg.maxQueryLength ResolveMode.search raw) now
      with ⟨g, cache'⟩
    cases g with
    | hit v => exact ⟨0, Nat.zero_le _, by simp [fastSearch, hget]⟩
    | miss =>
      rcases runChain_trace_take (normalize cfg.maxQueryLength raw) limit resolvers
        with ⟨k, hk, htr⟩
      refine ⟨k, hk, ?_⟩
      rcases hrun : runChain (normalize cfg.maxQueryLength raw) limit resolvers
        with ⟨out, tr⟩
      rw [hrun] at htr
      cases out with
      | success rn cands =>
        simpa [fastSearch, hget, hrun] using htr
      | chainExhausted attempts =>
        simpa [fastSearch, hget, hrun] using htr

/-- Witness for C4: with an unexpired entry for the key of `Song`, the
orchestrator returns the cached candidate with zero resolver invocations. -/
theorem fastSearch_spec_witness :
    fastSearch ⟨100, 1800⟩ [resolverA, resolverB] sampleCache3 "Song" 5 5
      = (SearchOutcome.results [sampleCandidate],
         { sampleCache3 with
             entries := alTouch (cacheKey 100 ResolveMode.search "Song") 5
               sampleCache3.entries,
             hits := sampleCache3.hits + 1 },
         []) :=
  (fastSearch_spec ⟨100, 1800⟩ [resolverA, resolverB] sampleCache3 "Song" 5 5).1
    ⟨[sampleCandidate], 0, 1800, 0⟩ (by decide) (by decide)

/-- C7 (amended): the play handler rejects exactly the empty joined query —
when `args.join(' ')` is empty it replies with the user-facing prompt and
never reaches `player.search`; a whitespace-only nonempty query is not
rejected by the guard. -/
theorem playHandler_rejects_empty (content : String) (inVoice : Bool)
    (hplay : "play".data.isPrefixOf content.data = true)
    (hempty : joinWords ((splitOnChar ' ' content.data).drop 1) = []) :
    playHandler content inVoice
      = PlayAction.reply "Please provide a song name or YouTube link." := by
  have hempty' : joinWords (splitOnChar ' ' content.data).tail = [] := by
    simpa using hempty
  simp [playHandler, hplay, hempty']

/-- Witness for the amended C7: a bare `play` is rejected with the prompt. -/
theorem playHandler_rejects_empty_witness :
    playHandler "play" true
      = PlayAction.reply "Please provide a song name or YouTube link." :=
  playHandler_rejects_empty "play" true (by decide) (by decide)

/-- C7 counterexample: the message `play` followed by two spaces yields the
whitespace-only query `" "`, which is empty after normalization, yet the
handler hands it to `player.search` instead of rejecting it locally. -/
theorem playHandler_whitespace_reaches_search :
    playHandler "play  " true = PlayAction.searchInvoked " " ∧
    normalize 100 " " = "" :=
  ⟨by decide, by decide⟩

/-- C8: when the parsed button index is a number `i` with `tracks[i]`
defined, the handler removes exactly the `i`-th track, keeping all others in
their original relative order, and names the removed track in its reply;
when the parse yields NaN or the index is out of bounds (including negative)
the queue is unchanged and the reply is "Invalid track index.". -/
theorem handleRemove_spec (customId : String) (tracks : List Track) :
    (∀ (i : Nat) (t : Track),
      parseIntJs ((splitOnChar '_' customId.data).getD 1 []) = some (i : Int) →
      tracks.get? i = some t →
      handleRemove customId tracks
        = (tracks.take i ++ tracks.drop (i + 1),
           "Removed **" ++ t.title ++ "** from the queue.")) ∧
    (parseIntJs ((splitOnChar '_' customId.data).getD 1 []) = none →
      handleRemove customId tracks = (tracks, "Invalid track index.")) ∧
    (∀ i : Int,
      parseIntJs ((splitOnChar '_' customId.data).getD 1 []) = some i →
      (i < 0 ∨ tracks.get? i.toNat = none) →
      handleRemove customId tracks = (tracks, "Invalid track index.")) := by
  refine ⟨?_, ?_, ?_⟩
  · intro i t hp ht
    unfold handleRemove
    simp only [hp]
    rw [if_neg (by omega)]
    rw [show ((i : Int)).toNat = i from by omega]
    simp only [ht]
  · intro hp
    unfold handleRemove
    simp only [hp]
  · intro i hp hbad
    unfold handleRemove
    simp only [hp]
    by_cases hi : i < 0
    · rw [if_pos hi]
    · rw [if_neg hi]
      rcases hbad with h | h
      · exact absurd h hi
      · simp only [h]

/-- Witness for C8: removing index 1 of three tracks keeps tracks 0 and 2 in
order; a non-numeric suffix and an out-of-bounds index leave the queue
unchanged with the invalid-index reply. -/
theorem handleRemove_spec_witness :
    handleRemove "remove_1" sampleTracks
      = (sampleTracks.take 1 ++ sampleTracks.drop 2,
         "Removed **Song Two** from the queue.") ∧
    handleRemove "remove_x" sampleTracks = (sampleTracks, "Invalid track index.") ∧
    handleRemove "remove_7" sampleTracks = (sampleTracks, "Invalid track index.") :=
  ⟨(handleRemove_spec "remove_1" sampleTracks).1 1 ⟨"Song Two", "u2"⟩
     (by decide) (by decide),
   (handleRemove_spec "remove_x" sampleTracks).2.1 (by decide),
   (handleRemove_spec "remove_7" sampleTracks).2.2 7 (by decide)
     (Or.inr (by decide))⟩

/-- C9: `clearMessages` deletes nothing when the guild has no configuration
or no stable message; otherwise it deletes only fetched messages whose id
differs from the stable message's id — in particular never the stable
message itself. -/
theorem clearMessages_spec (guildConfig : Option GuildConfig) (fetched : List Msg) :
    (guildConfig = none → clearMessagesToDelete guildConfig fetched = []) ∧
    (∀ cfg, guildConfig = some cfg → cfg.stableMessage = none →
      clearMessagesToDelete guildConfig fetched = []) ∧
    (∀ cfg stable, guildConfig = some cfg → cfg.stableMessage = some stable →
      (∀ m ∈ clearMessagesToDelete guildConfig fetched,
        m ∈ fetched ∧ ¬ m.id = stable.id) ∧
      stable ∉ clearMessagesToDelete guildConfig fetched) := by
  refine ⟨?_, ?_, ?_⟩
  · intro h
    simp [clearMessagesToDelete, h]
  · intro cfg hg hs
    simp [clearMessagesToDelete, hg, hs]
  · intro cfg stable hg hs
    have hdel : clearMessagesToDelete guildConfig fetched
        = fetched.filter (fun m => decide (¬ m.id = stable.id)) := by
      simp [clearMessagesToDelete, hg, hs]
    constructor
    · intro m hm
      rw [hdel] at hm
      have h := List.mem_filter.1 hm
      exact ⟨h.1, by simpa using h.2⟩
    · intro hmem
      rw [hdel] at hmem
      have h := (List.mem_filter.1 hmem).2
      simp at h

/-- Witness for C9: with no guild config nothing is deleted, and with a
stable message of id `sid` among the fetched messages, that message is not
among the deleted ones. -/
theorem clearMessages_spec_witness :
    clearMessagesToDelete none [⟨"a"⟩] = [] ∧
    (⟨"sid"⟩ : Msg) ∉ clearMessagesToDelete
        (some ⟨"chan", "sid", some ⟨"sid"⟩⟩) [⟨"a"⟩, ⟨"sid"⟩, ⟨"b"⟩] :=
  ⟨(clearMessages_spec none [⟨"a"⟩]).1 rfl,
   ((clearMessages_spec (some ⟨"chan", "sid", some ⟨"sid"⟩⟩)
       [⟨"a"⟩, ⟨"sid"⟩, ⟨"b"⟩]).2.2
     ⟨"chan", "sid", some ⟨"sid"⟩⟩ ⟨"sid"⟩ rfl rfl).2⟩

theorem queueButtons_fold :
    ∀ (l : List Track) (i : Nat) (rows : List (List Button)) (cur : List Button),
      (∀ r ∈ rows, r.length = 5) → cur.length ≤ 5 →
      (((List.enumFrom i l).foldl queueButtonsStep (rows, cur)).1.flatten
          ++ ((List.enumFrom i l).foldl queueButtonsStep (rows, cur)).2
        = rows.flatten ++ cur ++ (List.range' i l.length).map removeButton) ∧
      (∀ r ∈ ((List.enumFrom i l).foldl queueButtonsStep (rows, cur)).1,
        r.length = 5) ∧
      ((List.enumFrom i l).foldl queueButtonsStep (rows, cur)).2.length ≤ 5 := by
  intro l
  induction l with
  | nil =>
    intro i rows cur hrows hcur
    exact ⟨by simp, hrows, hcur⟩
  | cons t ts ih =>
    intro i rows cur hrows hcur
    by_cases h5 : cur.length = 5
    · have hfold : (List.enumFrom i (t :: ts)).foldl queueButtonsStep (rows, cur)
          = (List.enumFrom (i + 1) ts).foldl queueButtonsStep
              (rows ++ [cur], [removeButton i]) := by
        show List.foldl queueButtonsStep
            (queueButtonsStep (rows, cur) (i, t)) (List.enumFrom (i + 1) ts) = _
        congr 1
        simp [queueButtonsStep, h5]
      have hrows' : ∀ r ∈ rows ++ [cur], r.length = 5 := by
        intro r hr
        rcases List.mem_append.1 hr with h | h
        · exact hrows r h
        · simp at h
          rw [h, h5]
      rcases ih (i + 1) (rows ++ [cur]) [removeButton i] hrows' (by simp)
        with ⟨hj, hr, hc⟩
      rw [hfold]
      refine ⟨?_, hr, hc⟩
      rw [hj]
      simp [List.range'_succ]
    · have hfold : (List.enumFrom i (t :: ts)).foldl queueButtonsStep (rows, cur)
          = (List.enumFrom (i + 1) ts).foldl queueButtonsStep
              (rows, cur ++ [removeButton i]) := by
        show List.foldl queueButtonsStep
            (queueButtonsStep (rows, cur) (i, t)) (List.enumFrom (i + 1) ts) = _
        congr 1
        simp [queueButtonsStep, h5]
      rcases ih (i + 1) rows (cur ++ [removeButton i]) hrows
        (by simp; omega) with ⟨hj, hr, hc⟩
      rw [hfold]
      refine ⟨?_, hr, hc⟩
      rw [hj]
      simp [List.range'_succ]

/-- C10: the remove-button rows built by `updateStableMessage` flatten to one
remove button per queued track in order, every action row holds at most 5
buttons, and button `k` carries customId `remove_k` with the 1-based label
`❌ Remove (k+1)`. -/
theorem queueButtonRows_spec (tracks : List Track) :
    (queueButtonRows tracks).flatten
        = (List.range tracks.length).map removeButton ∧
    (queueButtonRows tracks).flatten.length = tracks.length ∧
    (∀ row ∈ queueButtonRows tracks, row.length ≤ 5) ∧
    (∀ k, k < tracks.length →
      (queueButtonRows tracks).flatten.get? k
        = some { customId := "remove_" ++ toString k,
                 label := "❌ Remove " ++ toString (k + 1) }) := by
  have h0 := queueButtons_fold tracks 0 [] [] (by simp) (by simp)
  rw [show List.enumFrom 0 tracks = tracks.enum from rfl] at h0
  rcases h0 with ⟨hj, hr, hc⟩
  rw [show List.range' 0 tracks.length = List.range tracks.length from
    (List.range_eq_range' tracks.length).symm] at hj
  simp only [List.flatten_nil, List.nil_append] at hj
  have hjoin : (queueButtonRows tracks).flatten
      = (List.range tracks.length).map removeButton := by
    by_cases hz : (tracks.enum.foldl queueButtonsStep ([], [])).2.length > 0
    · have : queueButtonRows tracks
          = (tracks.enum.foldl queueButtonsStep ([], [])).1
              ++ [(tracks.enum.foldl queueButtonsStep ([], [])).2] := by
        simp [queueButtonRows, hz]
      rw [this, List.flatten_append]
      simpa using hj
    · have hnil : (tracks.enum.foldl queueButtonsStep ([], [])).2 = [] := by
        simp at hz
        exact hz
      have : queueButtonRows tracks
          = (tracks.enum.foldl queueButtonsStep ([], [])).1 := by
        simp [queueButtonRows, hz]
      rw [this]
      rw [hnil, List.append_nil] at hj
      exact hj
  refine ⟨hjoin, ?_, ?_, ?_⟩
  · rw [hjoin]
    simp
  · intro row hrow
    by_cases hz : (tracks.enum.foldl queueButtonsStep ([], [])).2.length > 0
    · have heq : queueButtonRows tracks
          = (tracks.enum.foldl queueButtonsStep ([], [])).1
              ++ [(tracks.enum.foldl queueButtonsStep ([], [])).2] := by
        simp [queueButtonRows, hz]
      rw [heq] at hrow
      rcases List.mem_append.1 hrow with h | h
      · exact Nat.le_of_eq (hr row h)
      · simp at h
        rw [h]
        exact hc
    · have heq : queueButtonRows tracks
          = (tracks.enum.foldl queueButtonsStep ([], [])).1 := by
        simp [queueButtonRows, hz]
      rw [heq] at hrow
      exact Nat.le_of_eq (hr row hrow)
  · intro k hk
    rw [hjoin, List.get?_eq_getElem?, List.getElem?_map, List.getElem?_range hk]
    rfl

/-- Witness for C10: six tracks yield a full row of five remove buttons and
one more row; the sixth button (index 5) is `remove_5` labelled `❌ Remove
6`. -/
theorem queueButtonRows_spec_witness :
    (queueButtonRows sampleTracks6).flatten.length = sampleTracks6.length ∧
    (queueButtonRows sampleTracks6).flatten.get? 5
      = some { customId := "remove_5", label := "❌ Remove 6" } :=
  ⟨(queueButtonRows_spec sampleTracks6).2.1,
   (queueButtonRows_spec sampleTracks6).2.2.2 5 (by decide)⟩

end MusicBot
